import Mathlib

/-!
Verification of the pressure-field analysis core of `visualize.py`
(`PressureFieldVisualizer`): field reconstruction from sparse voxel
records, focal-point / FWHM analysis, normalization of the dense field,
and the color/opacity transfer-function tables.

The dense pressure field is embedded as a flat `List ℚ` in row-major
(numpy C) order together with its shape `(nx, ny, nz)`; the voxel at
`(i, j, k)` lives at flat index `(i * ny + j) * nz + k`.  numpy floats
are modelled by exact rationals; a numpy NaN (the result of the `0/0`
divisions `visualize.py` can perform during normalization) is modelled
by `none` in an `Option ℚ` entry.
-/

namespace Octopus

/-- Maximum of a list, as `numpy.max` computes it over a non-empty array.
The `[]` case is irrelevant: `numpy.max` raises on an empty array, and all
theorems below assume a non-empty field. -/
def listMax {α : Type} [Inhabited α] [LinearOrder α] : List α → α
  | [] => default
  | [x] => x
  | x :: y :: ys => max x (listMax (y :: ys))

/-- Minimum of a list, as `numpy.min` computes it over a non-empty array. -/
def listMin {α : Type} [Inhabited α] [LinearOrder α] : List α → α
  | [] => default
  | [x] => x
  | x :: y :: ys => min x (listMin (y :: ys))

theorem listMax_mem {α : Type} [Inhabited α] [LinearOrder α] :
    ∀ (l : List α), l ≠ [] → listMax l ∈ l
  | [], h => absurd rfl h
  | [x], _ => by simp [listMax]
  | x :: y :: ys, _ => by
    have ih := listMax_mem (y :: ys) (by simp)
    rcases le_total x (listMax (y :: ys)) with h | h
    · simp [listMax, max_eq_right h]
      right
      simpa using ih
    · simp [listMax, max_eq_left h]

theorem le_listMax {α : Type} [Inhabited α] [LinearOrder α] :
    ∀ (l : List α), ∀ x ∈ l, x ≤ listMax l
  | [], x, hx => by simp at hx
  | [y], x, hx => by
    simp at hx
    simp [listMax, hx]
  | y :: z :: ys, x, hx => by
    rcases List.mem_cons.mp hx with h | h
    · simp [listMax, h]
    · have := le_listMax (z :: ys) x h
      simp [listMax]
      right
      exact this

theorem listMin_mem {α : Type} [Inhabited α] [LinearOrder α] :
    ∀ (l : List α), l ≠ [] → listMin l ∈ l
  | [], h => absurd rfl h
  | [x], _ => by simp [listMin]
  | x :: y :: ys, _ => by
    have ih := listMin_mem (y :: ys) (by simp)
    rcases le_total x (listMin (y :: ys)) with h | h
    · simp [listMin, min_eq_left h]
    · simp [listMin, min_eq_right h]
      right
      simpa using ih

theorem listMin_le {α : Type} [Inhabited α] [LinearOrder α] :
    ∀ (l : List α), ∀ x ∈ l, listMin l ≤ x
  | [], x, hx => by simp at hx
  | [y], x, hx => by
    simp at hx
    simp [listMin, hx]
  | y :: z :: ys, x, hx => by
    rcases List.mem_cons.mp hx with h | h
    · simp [listMin, h]
    · have := listMin_le (z :: ys) x h
      simp [listMin]
      right
      exact this

/-! ## Normalization (`create_volume`, lines 136-150)

```python
if self.pressure_field.max() > self.pressure_field.min():
    min_val = self.pressure_field[self.pressure_field > 0].min() \
        if np.any(self.pressure_field > 0) else 0
    max_val = self.pressure_field.max()
    normalized_field = np.where(flat_field > 0,
                                (flat_field - min_val) / (max_val - min_val),
                                -0.1)
else:
    normalized_field = np.where(flat_field > 0, 0.5, -0.1)
```

`flat_field` is a flattening of the same array the statistics are taken
from, so the normalization is an element-wise map of the field's values;
we apply it to the row-major value list (the Fortran flattening the code
uses is a permutation of it, which no per-voxel claim depends on). -/

/-- Embeds `pressure_field[pressure_field > 0].min() if np.any(pressure_field > 0) else 0`. -/
def posMin (l : List ℚ) : ℚ :=
  if (l.filter (fun v => 0 < v)) = [] then 0 else listMin (l.filter (fun v => 0 < v))

/-- Element-wise normalization of `create_volume`.  `some x` is the float
`x`; `none` is the NaN numpy produces when the positive branch divides by
`max_val - min_val = 0` (the only fault case: whenever the denominator is
zero the numerator `v - min_val` is also zero, giving `0/0`). -/
def normalizeField (l : List ℚ) : List (Option ℚ) :=
  if listMax l > listMin l then
    l.map (fun v =>
      if 0 < v then
        if listMax l = posMin l then none
        else some ((v - posMin l) / (listMax l - posMin l))
      else some (-1/10))
  else
    l.map (fun v => if 0 < v then some (1/2) else some (-1/10))

theorem posMin_spec (l : List ℚ) (hp : ∃ v ∈ l, 0 < v) :
    posMin l ∈ l ∧ 0 < posMin l ∧ ∀ v ∈ l, 0 < v → posMin l ≤ v := by
  obtain ⟨v, hv, hvpos⟩ := hp
  have hvf : v ∈ l.filter (fun v => 0 < v) := by
    simp [List.mem_filter, hv, hvpos]
  have hne : l.filter (fun v => 0 < v) ≠ [] := by
    intro h
    rw [h] at hvf
    simp at hvf
  have hmem := listMin_mem (l.filter (fun v => 0 < v)) hne
  have hmf := List.mem_filter.mp hmem
  have hpm : posMin l = listMin (l.filter (fun v => 0 < v)) := by
    simp only [posMin]
    rw [if_neg hne]
  refine ⟨?_, ?_, ?_⟩
  · rw [hpm]
    exact hmf.1
  · rw [hpm]
    simpa using hmf.2
  · intro w hw hwpos
    rw [hpm]
    exact listMin_le _ w (List.mem_filter.mpr ⟨hw, by simpa using hwpos⟩)

/-! ## Focal-point and FWHM analysis (`load_data`, lines 79-120)

```python
max_idx = np.unravel_index(np.argmax(self.pressure_field), self.pressure_field.shape)
max_pressure = self.pressure_field[max_idx]
fwhm_threshold = max_pressure * 0.708
fwhm_mask = self.pressure_field >= fwhm_threshold
fwhm_voxels = np.where(fwhm_mask)
if len(fwhm_voxels[0]) > 0:
    min_x, max_x = fwhm_voxels[0].min(), fwhm_voxels[0].max()   # likewise y, z
    fwhm_x = (max_x - min_x + 1) * voxel_size                    # likewise y, z
    self.fwhm_threshold = fwhm_threshold
else:
    self.fwhm_threshold = max_pressure * 0.5  # Fallback
```
-/

/-- Row-major enumeration of all voxel indices of an `(nx, ny, nz)` grid:
the order in which `np.where` lists the indices of a mask. -/
def allIdx (nx ny nz : ℕ) : List (ℕ × ℕ × ℕ) :=
  (List.range nx).bind (fun i =>
    (List.range ny).bind (fun j =>
      (List.range nz).map (fun k => (i, j, k))))

/-- Value of the row-major flattened field `l` at voxel `(i, j, k)`. -/
def valAt (ny nz : ℕ) (l : List ℚ) (p : ℕ × ℕ × ℕ) : ℚ :=
  l.getD ((p.1 * ny + p.2.1) * nz + p.2.2) 0

/-- Embeds `np.argmax` over the flattened field, embedded through its documented
semantics: the first flat index attaining the maximum value. -/
def argmaxList (l : List ℚ) : ℕ := l.indexOf (listMax l)

/-- Embeds `np.unravel_index(a, (nx, ny, nz))` in C (row-major) order. -/
def unravel (ny nz a : ℕ) : ℕ × ℕ × ℕ :=
  (a / (ny * nz), (a % (ny * nz)) / nz, (a % (ny * nz)) % nz)

/-- Embeds `max_idx`: the 3-D index of the focal point. -/
def maxIdx3 (ny nz : ℕ) (l : List ℚ) : ℕ × ℕ × ℕ := unravel ny nz (argmaxList l)

/-- Embeds `fwhm_threshold = max_pressure * 0.708`. -/
def fwhmThreshold (l : List ℚ) : ℚ := listMax l * (708/1000)

/-- The FWHM voxel index list `np.where(pressure_field >= fwhm_threshold)`,
in row-major order. -/
def fwhmIdxList (nx ny nz : ℕ) (l : List ℚ) : List (ℕ × ℕ × ℕ) :=
  (allIdx nx ny nz).filter (fun p => fwhmThreshold l ≤ valAt ny nz l p)

/-- The threshold the visualizer stores: `fwhm_threshold` when the FWHM set
is non-empty, otherwise the half-maximum fallback `max_pressure * 0.5`. -/
def storedThreshold (nx ny nz : ℕ) (l : List ℚ) : ℚ :=
  if 0 < (fwhmIdxList nx ny nz l).length then fwhmThreshold l
  else listMax l * (1/2)

/-- Embeds `fwhm_voxels[0].min()` (per-axis bounding-box minimum; axis selected by
the projection `f`). -/
def fwhmAxisMin (nx ny nz : ℕ) (l : List ℚ) (f : ℕ × ℕ × ℕ → ℕ) : ℕ :=
  listMin ((fwhmIdxList nx ny nz l).map f)

/-- Embeds `fwhm_voxels[axis].max()`. -/
def fwhmAxisMax (nx ny nz : ℕ) (l : List ℚ) (f : ℕ × ℕ × ℕ → ℕ) : ℕ :=
  listMax ((fwhmIdxList nx ny nz l).map f)

/-- Embeds `fwhm_<axis> = (max_<axis> - min_<axis> + 1) * voxel_size`. -/
def fwhmDim (nx ny nz : ℕ) (l : List ℚ) (vs : ℚ) (f : ℕ × ℕ × ℕ → ℕ) : ℚ :=
  ((fwhmAxisMax nx ny nz l f - fwhmAxisMin nx ny nz l f + 1 : ℕ) : ℚ) * vs

/-- Embeds `fwhm_x * fwhm_y * fwhm_z`. -/
def fwhmVolume (nx ny nz : ℕ) (l : List ℚ) (vs : ℚ) : ℚ :=
  fwhmDim nx ny nz l vs (fun p => p.1) * fwhmDim nx ny nz l vs (fun p => p.2.1) *
    fwhmDim nx ny nz l vs (fun p => p.2.2)

/-- Embeds `len(fwhm_voxels[0])`. -/
def fwhmVoxelCount (nx ny nz : ℕ) (l : List ℚ) : ℕ := (fwhmIdxList nx ny nz l).length

/-- Specification-side FWHM region: the *set* of voxels at or above the
threshold, as a `Finset` over the index grid. -/
def fwhmFinset (nx ny nz : ℕ) (l : List ℚ) : Finset (ℕ × ℕ × ℕ) :=
  (Finset.range nx ×ˢ (Finset.range ny ×ˢ Finset.range nz)).filter
    (fun p => fwhmThreshold l ≤ valAt ny nz l p)

theorem mem_allIdx {nx ny nz : ℕ} {p : ℕ × ℕ × ℕ} :
    p ∈ allIdx nx ny nz ↔ p.1 < nx ∧ p.2.1 < ny ∧ p.2.2 < nz := by
  rcases p with ⟨i, j, k⟩
  simp only [allIdx, List.mem_bind, List.mem_map, List.mem_range, Prod.mk.injEq]
  constructor
  · rintro ⟨a, ha, b, hb, c, hc, rfl, rfl, rfl⟩
    exact ⟨ha, hb, hc⟩
  · rintro ⟨hi, hj, hk⟩
    exact ⟨i, hi, j, hj, k, hk, rfl, rfl, rfl⟩

theorem flatIdx_lt {i j k nx ny nz : ℕ} (hi : i < nx) (hj : j < ny) (hk : k < nz) :
    (i * ny + j) * nz + k < nx * ny * nz := by
  have h1 : (i * ny + j) * nz + k < (i * ny + j + 1) * nz := by
    have : (i * ny + j + 1) * nz = (i * ny + j) * nz + nz := by ring
    omega
  have h2 : i * ny + j + 1 ≤ (i + 1) * ny := by
    have : (i + 1) * ny = i * ny + ny := by ring
    omega
  have h3 : (i + 1) * ny ≤ nx * ny := Nat.mul_le_mul_right ny hi
  calc (i * ny + j) * nz + k < (i * ny + j + 1) * nz := h1
    _ ≤ (nx * ny) * nz := Nat.mul_le_mul_right nz (le_trans h2 h3)
    _ = nx * ny * nz := by ring

theorem unravel_spec (nx ny nz a : ℕ) (hy : 0 < ny) (hz : 0 < nz)
    (ha : a < nx * ny * nz) :
    (unravel ny nz a).1 < nx ∧ (unravel ny nz a).2.1 < ny ∧
      (unravel ny nz a).2.2 < nz ∧
      ((unravel ny nz a).1 * ny + (unravel ny nz a).2.1) * nz +
        (unravel ny nz a).2.2 = a := by
  have hyz : 0 < ny * nz := Nat.mul_pos hy hz
  refine ⟨?_, ?_, ?_, ?_⟩
  · show a / (ny * nz) < nx
    rw [Nat.div_lt_iff_lt_mul hyz]
    calc a < nx * ny * nz := ha
      _ = nx * (ny * nz) := by ring
  · show a % (ny * nz) / nz < ny
    rw [Nat.div_lt_iff_lt_mul hz]
    calc a % (ny * nz) < ny * nz := Nat.mod_lt a hyz
      _ = ny * nz := rfl
  · exact Nat.mod_lt _ hz
  · show (a / (ny * nz) * ny + a % (ny * nz) / nz) * nz + a % (ny * nz) % nz = a
    have h1 := Nat.div_add_mod a (ny * nz)
    have h2 := Nat.div_add_mod (a % (ny * nz)) nz
    calc (a / (ny * nz) * ny + a % (ny * nz) / nz) * nz + a % (ny * nz) % nz
        = (ny * nz) * (a / (ny * nz)) + (nz * (a % (ny * nz) / nz) + a % (ny * nz) % nz) := by
          ring
      _ = (ny * nz) * (a / (ny * nz)) + a % (ny * nz) := by rw [h2]
      _ = a := h1

theorem valAt_eq_get (nx ny nz : ℕ) (l : List ℚ) (hlen : l.length = nx * ny * nz)
    {p : ℕ × ℕ × ℕ} (hp : p.1 < nx ∧ p.2.1 < ny ∧ p.2.2 < nz) :
    ∃ h : (p.1 * ny + p.2.1) * nz + p.2.2 < l.length,
      valAt ny nz l p = l.get ⟨(p.1 * ny + p.2.1) * nz + p.2.2, h⟩ := by
  have hlt : (p.1 * ny + p.2.1) * nz + p.2.2 < l.length := by
    rw [hlen]
    exact flatIdx_lt hp.1 hp.2.1 hp.2.2
  exact ⟨hlt, List.getD_eq_get l 0 hlt⟩

theorem valAt_mem (nx ny nz : ℕ) (l : List ℚ) (hlen : l.length = nx * ny * nz)
    {p : ℕ × ℕ × ℕ} (hp : p.1 < nx ∧ p.2.1 < ny ∧ p.2.2 < nz) :
    valAt ny nz l p ∈ l := by
  obtain ⟨h, hv⟩ := valAt_eq_get nx ny nz l hlen hp
  rw [hv]
  exact l.get_mem _ _

/-- Every index before `argmax` holds a value strictly below the maximum:
`np.argmax` reports the first occurrence. -/
theorem get?_lt_of_lt_indexOf :
    ∀ (l : List ℚ) (a : ℚ) (m : ℕ), m < l.indexOf a → l.get? m ≠ some a
  | [], a, m, hm => by simp at hm ⊢
  | x :: xs, a, m, hm => by
    by_cases hx : x = a
    · rw [List.indexOf_cons_eq xs hx] at hm
      omega
    · rw [List.indexOf_cons_ne xs hx] at hm
      cases m with
      | zero =>
        simp only [List.get?]
        intro h
        exact hx (Option.some.injEq .. ▸ h)
      | succ m =>
        simp only [List.get?]
        exact get?_lt_of_lt_indexOf xs a m (Nat.lt_of_succ_lt_succ hm)

theorem nodup_allIdx (nx ny nz : ℕ) : (allIdx nx ny nz).Nodup := by
  unfold allIdx
  rw [List.nodup_bind]
  refine ⟨fun i _ => ?_, ?_⟩
  · rw [List.nodup_bind]
    refine ⟨fun j _ => ?_, ?_⟩
    · refine List.Nodup.map ?_ (List.nodup_range nz)
      intro a b h
      simpa using congrArg (fun q : ℕ × ℕ × ℕ => q.2.2) h
    · refine List.Pairwise.imp ?_ (List.nodup_range ny)
      intro j1 j2 hne
      simp only [Function.onFun]
      intro p hp1 hp2
      simp only [List.mem_map, List.mem_range] at hp1 hp2
      obtain ⟨k1, _, rfl⟩ := hp1
      obtain ⟨k2, _, he⟩ := hp2
      have hj := congrArg (fun q : ℕ × ℕ × ℕ => q.2.1) he
      simp at hj
      exact hne hj.symm
  · refine List.Pairwise.imp ?_ (List.nodup_range nx)
    intro i1 i2 hne
    simp only [Function.onFun]
    intro p hp1 hp2
    simp only [List.mem_bind, List.mem_map, List.mem_range] at hp1 hp2
    obtain ⟨j1, _, k1, _, rfl⟩ := hp1
    obtain ⟨j2, _, k2, _, he⟩ := hp2
    have hi := congrArg (fun q : ℕ × ℕ × ℕ => q.1) he
    simp at hi
    exact hne hi.symm

theorem fwhm_toFinset (nx ny nz : ℕ) (l : List ℚ) :
    (fwhmIdxList nx ny nz l).toFinset = fwhmFinset nx ny nz l := by
  ext p
  simp only [fwhmIdxList, fwhmFinset, List.mem_toFinset, List.mem_filter, mem_allIdx,
    Finset.mem_filter, Finset.mem_product, Finset.mem_range, decide_eq_true_eq]

theorem fwhmVoxelCount_eq_card (nx ny nz : ℕ) (l : List ℚ) :
    fwhmVoxelCount nx ny nz l = (fwhmFinset nx ny nz l).card := by
  rw [← fwhm_toFinset]
  exact (List.toFinset_card_of_nodup ((nodup_allIdx nx ny nz).filter _)).symm

theorem valAt_maxIdx3 (nx ny nz : ℕ) (l : List ℚ) (hy : 0 < ny) (hz : 0 < nz)
    (hlen : l.length = nx * ny * nz) (hne : l ≠ []) :
    valAt ny nz l (maxIdx3 ny nz l) = listMax l ∧
    (maxIdx3 ny nz l).1 < nx ∧ (maxIdx3 ny nz l).2.1 < ny ∧
    (maxIdx3 ny nz l).2.2 < nz ∧
    ((maxIdx3 ny nz l).1 * ny + (maxIdx3 ny nz l).2.1) * nz +
      (maxIdx3 ny nz l).2.2 = argmaxList l := by
  have hmem := listMax_mem l hne
  have ha : argmaxList l < l.length := List.indexOf_lt_length.mpr hmem
  have ha' : argmaxList l < nx * ny * nz := hlen ▸ ha
  obtain ⟨h1, h2, h3, h4⟩ := unravel_spec nx ny nz (argmaxList l) hy hz ha'
  simp only [maxIdx3] at *
  refine ⟨?_, h1, h2, h3, h4⟩
  show l.getD _ 0 = listMax l
  rw [h4, List.getD_eq_get l 0 ha]
  exact List.indexOf_get ha

theorem maxIdx3_mem_fwhm (nx ny nz : ℕ) (l : List ℚ) (hx : 0 < nx) (hy : 0 < ny)
    (hz : 0 < nz) (hlen : l.length = nx * ny * nz) (hnn : ∀ v ∈ l, 0 ≤ v) :
    maxIdx3 ny nz l ∈ fwhmIdxList nx ny nz l := by
  have hlenpos : 0 < l.length := by
    rw [hlen]
    exact Nat.mul_pos (Nat.mul_pos hx hy) hz
  have hne : l ≠ [] := List.length_pos.mp hlenpos
  obtain ⟨hval, h1, h2, h3, _⟩ := valAt_maxIdx3 nx ny nz l hy hz hlen hne
  have hmax_nn : 0 ≤ listMax l := hnn _ (listMax_mem l hne)
  refine List.mem_filter.mpr ⟨mem_allIdx.mpr ⟨h1, h2, h3⟩, ?_⟩
  simp only [decide_eq_true_eq]
  rw [hval, fwhmThreshold]
  nlinarith

theorem storedThreshold_of_nonempty (nx ny nz : ℕ) (l : List ℚ)
    (h : fwhmIdxList nx ny nz l ≠ []) :
    storedThreshold nx ny nz l = fwhmThreshold l := by
  simp only [storedThreshold]
  rw [if_pos (List.length_pos.mpr h)]

theorem storedThreshold_of_empty (nx ny nz : ℕ) (l : List ℚ)
    (h : fwhmIdxList nx ny nz l = []) :
    storedThreshold nx ny nz l = listMax l * (1/2) := by
  simp only [storedThreshold, h]
  rfl

theorem listMax_replicate (c : ℚ) : ∀ n : ℕ, 0 < n → listMax (List.replicate n c) = c
  | 0, h => absurd h (by simp)
  | 1, _ => by simp [listMax]
  | n + 2, _ => by
    have ih := listMax_replicate c (n + 1) (Nat.succ_pos n)
    simp only [List.replicate] at ih ⊢
    simp [listMax, ih]

/-- Claim C3.  For every non-negative, non-empty field the stored
`fwhm_threshold` equals `max_pressure * 0.708` exactly (`0.708` is a
literal in the code, not configurable), and every voxel of the reported
FWHM region has value at least that threshold. -/
theorem fwhm_threshold_correct (nx ny nz : ℕ) (l : List ℚ) (hx : 0 < nx) (hy : 0 < ny)
    (hz : 0 < nz) (hlen : l.length = nx * ny * nz) (hnn : ∀ v ∈ l, 0 ≤ v) :
    storedThreshold nx ny nz l = listMax l * (708/1000) ∧
    ∀ p ∈ fwhmIdxList nx ny nz l, storedThreshold nx ny nz l ≤ valAt ny nz l p := by
  have hmem := maxIdx3_mem_fwhm nx ny nz l hx hy hz hlen hnn
  have hne : fwhmIdxList nx ny nz l ≠ [] := List.ne_nil_of_mem hmem
  have hst := storedThreshold_of_nonempty nx ny nz l hne
  refine ⟨hst, ?_⟩
  intro p hp
  rw [hst]
  simpa using (List.mem_filter.mp hp).2

theorem fwhm_threshold_correct_witness :
    ((0:ℕ) < 1 ∧ (0:ℕ) < 1 ∧ (0:ℕ) < 2 ∧ [(1:ℚ), 2].length = 1 * 1 * 2 ∧
      (∀ v ∈ [(1:ℚ), 2], 0 ≤ v)) ∧
    (storedThreshold 1 1 2 [1, 2] = listMax [1, 2] * (708/1000) ∧
      ∀ p ∈ fwhmIdxList 1 1 2 [1, 2], storedThreshold 1 1 2 [1, 2] ≤ valAt 1 2 [1, 2] p) :=
  ⟨⟨by norm_num, by norm_num, by norm_num, by norm_num, by norm_num⟩,
   fwhm_threshold_correct 1 1 2 [1, 2] (by norm_num) (by norm_num) (by norm_num)
    (by norm_num) (by norm_num)⟩

/-- Claim C10.  For every non-negative field the voxel at `max_index` carries
the global maximum, which is at least `max_pressure * 0.708`; hence the
FWHM voxel set contains the argmax voxel and is never empty, the
half-maximum fallback branch is unreachable, and the stored threshold
always equals `max_pressure * 0.708`. -/
theorem fwhm_fallback_unreachable (nx ny nz : ℕ) (l : List ℚ) (hx : 0 < nx)
    (hy : 0 < ny) (hz : 0 < nz) (hlen : l.length = nx * ny * nz)
    (hnn : ∀ v ∈ l, 0 ≤ v) :
    fwhmThreshold l ≤ valAt ny nz l (maxIdx3 ny nz l) ∧
    maxIdx3 ny nz l ∈ fwhmIdxList nx ny nz l ∧
    fwhmIdxList nx ny nz l ≠ [] ∧
    storedThreshold nx ny nz l = listMax l * (708/1000) := by
  have hmem := maxIdx3_mem_fwhm nx ny nz l hx hy hz hlen hnn
  have hne : fwhmIdxList nx ny nz l ≠ [] := List.ne_nil_of_mem hmem
  refine ⟨?_, hmem, hne, storedThreshold_of_nonempty nx ny nz l hne⟩
  simpa using (List.mem_filter.mp hmem).2

theorem fwhm_fallback_unreachable_witness :
    ((0:ℕ) < 2 ∧ (0:ℕ) < 1 ∧ (0:ℕ) < 1 ∧ [(0:ℚ), 3].length = 2 * 1 * 1 ∧
      (∀ v ∈ [(0:ℚ), 3], 0 ≤ v)) ∧
    (fwhmThreshold [0, 3] ≤ valAt 1 1 [0, 3] (maxIdx3 1 1 [0, 3]) ∧
      maxIdx3 1 1 [0, 3] ∈ fwhmIdxList 2 1 1 [0, 3] ∧
      fwhmIdxList 2 1 1 [0, 3] ≠ [] ∧
      storedThreshold 2 1 1 [0, 3] = listMax [0, 3] * (708/1000)) :=
  ⟨⟨by norm_num, by norm_num, by norm_num, by norm_num, by norm_num⟩,
   fwhm_fallback_unreachable 2 1 1 [0, 3] (by norm_num) (by norm_num) (by norm_num)
    (by norm_num) (by norm_num)⟩

/-- Claim C8.  `max_index` is computed by `argmax` over the flattened field:
the voxel it names carries the maximum value, its row-major flat index is
`argmax`, and every strictly smaller flat index holds a value different
from the maximum — among all voxels attaining the maximum, the
first-encountered (smallest) row-major index is reported, a deterministic
function of the field. -/
theorem argmax_first_occurrence (nx ny nz : ℕ) (l : List ℚ) (hy : 0 < ny) (hz : 0 < nz)
    (hlen : l.length = nx * ny * nz) (hne : l ≠ []) :
    valAt ny nz l (maxIdx3 ny nz l) = listMax l ∧
    (∀ v ∈ l, v ≤ listMax l) ∧
    argmaxList l < l.length ∧
    l.get? (argmaxList l) = some (listMax l) ∧
    (∀ m, m < argmaxList l → l.get? m ≠ some (listMax l)) ∧
    ((maxIdx3 ny nz l).1 * ny + (maxIdx3 ny nz l).2.1) * nz +
      (maxIdx3 ny nz l).2.2 = argmaxList l := by
  obtain ⟨hval, _, _, _, hflat⟩ := valAt_maxIdx3 nx ny nz l hy hz hlen hne
  have hmem := listMax_mem l hne
  have ha : argmaxList l < l.length := List.indexOf_lt_length.mpr hmem
  refine ⟨hval, le_listMax l, ha, ?_, ?_, hflat⟩
  · rw [List.get?_eq_get ha]
    exact congrArg some (List.indexOf_get ha)
  · intro m hm
    exact get?_lt_of_lt_indexOf l (listMax l) m hm

theorem argmax_first_occurrence_witness :
    ((0:ℕ) < 1 ∧ (0:ℕ) < 1 ∧ [(1:ℚ), 3, 3].length = 3 * 1 * 1 ∧
      [(1:ℚ), 3, 3] ≠ []) ∧
    (valAt 1 1 [1, 3, 3] (maxIdx3 1 1 [1, 3, 3]) = listMax [1, 3, 3] ∧
      (∀ v ∈ [(1:ℚ), 3, 3], v ≤ listMax [1, 3, 3]) ∧
      argmaxList [1, 3, 3] < [(1:ℚ), 3, 3].length ∧
      [(1:ℚ), 3, 3].get? (argmaxList [1, 3, 3]) = some (listMax [1, 3, 3]) ∧
      (∀ m, m < argmaxList [1, 3, 3] → [(1:ℚ), 3, 3].get? m ≠ some (listMax [1, 3, 3])) ∧
      ((maxIdx3 1 1 [1, 3, 3]).1 * 1 + (maxIdx3 1 1 [1, 3, 3]).2.1) * 1 +
        (maxIdx3 1 1 [1, 3, 3]).2.2 = argmaxList [1, 3, 3]) :=
  ⟨⟨by norm_num, by norm_num, by norm_num, by simp⟩,
   argmax_first_occurrence 3 1 1 [1, 3, 3] (by norm_num) (by norm_num) (by norm_num)
    (by simp)⟩

/-- Claim C4 counterexample.  For the all-zero field of shape `(1,1,2)` the
`≥`-comparison makes the FWHM region the *entire* field (2 voxels, not the
claimed 0), and for the uniform field of `2.0` the stored threshold is
`2 * 0.708 = 1.416`: the region is non-empty, so the claimed `0.5`-fallback
(threshold `1.0`) is not taken. -/
theorem fwhm_fallback_cex :
    fwhmVoxelCount 1 1 2 [0, 0] = 2 ∧ (2 : ℕ) ≠ 0 ∧
    storedThreshold 1 1 2 [2, 2] = 1416/1000 ∧ (1416/1000 : ℚ) ≠ 1 := by
  refine ⟨?_, by norm_num, ?_, by norm_num⟩
  · norm_num [fwhmVoxelCount, fwhmIdxList, allIdx, fwhmThreshold,
      valAt, listMax, List.range_succ, List.filter]
  · norm_num [storedThreshold, fwhmVoxelCount, fwhmIdxList, allIdx, fwhmThreshold,
      valAt, listMax, List.range_succ, List.filter]

/-- Claim C4 (amended).  The fallback branch assigns `max_pressure * 0.5`
exactly when the `≥`-threshold voxel set is empty; but for every uniform
non-negative field — the claim's all-zero and all-`2.0` scenarios — the
region is the entire grid and the stored threshold is `c * 0.708`
(`0` resp. `1.416`), the fallback never firing; no exception occurs in
either case (all operations are total). -/
theorem fwhm_fallback_branch (nx ny nz : ℕ) (l : List ℚ) (hx : 0 < nx) (hy : 0 < ny)
    (hz : 0 < nz) :
    (fwhmIdxList nx ny nz l = [] → storedThreshold nx ny nz l = listMax l * (1/2)) ∧
    (∀ c : ℚ, 0 ≤ c → l = List.replicate (nx * ny * nz) c →
      fwhmIdxList nx ny nz l = allIdx nx ny nz ∧
      storedThreshold nx ny nz l = c * (708/1000)) := by
  constructor
  · exact storedThreshold_of_empty nx ny nz l
  · rintro c hc rfl
    have hn : 0 < nx * ny * nz := Nat.mul_pos (Nat.mul_pos hx hy) hz
    have hmax : listMax (List.replicate (nx * ny * nz) c) = c := listMax_replicate c _ hn
    have hval : ∀ p ∈ allIdx nx ny nz,
        valAt ny nz (List.replicate (nx * ny * nz) c) p = c := by
      intro p hp
      obtain ⟨h, hv⟩ := valAt_eq_get nx ny nz (List.replicate (nx * ny * nz) c) (by simp) (mem_allIdx.mp hp)
      rw [hv]
      exact List.get_replicate c _
    have hfilter : fwhmIdxList nx ny nz (List.replicate (nx * ny * nz) c) =
        allIdx nx ny nz := by
      unfold fwhmIdxList
      rw [List.filter_eq_self]
      intro p hp
      simp only [decide_eq_true_eq]
      rw [hval p hp, fwhmThreshold, hmax]
      nlinarith
    refine ⟨hfilter, ?_⟩
    have hne : allIdx nx ny nz ≠ [] := by
      intro h
      have hm : ((0, 0, 0) : ℕ × ℕ × ℕ) ∈ allIdx nx ny nz := mem_allIdx.mpr ⟨hx, hy, hz⟩
      rw [h] at hm
      simp at hm
    rw [storedThreshold_of_nonempty nx ny nz (List.replicate (nx * ny * nz) c)
      (by rw [hfilter]; exact hne), fwhmThreshold, hmax]

theorem fwhm_fallback_branch_witness :
    ((0:ℕ) < 1 ∧ (0:ℕ) < 1 ∧ (0:ℕ) < 2) ∧
    ((fwhmIdxList 1 1 2 [2, 2] = [] →
        storedThreshold 1 1 2 [2, 2] = listMax [2, 2] * (1/2)) ∧
      (∀ c : ℚ, 0 ≤ c → [(2:ℚ), 2] = List.replicate (1 * 1 * 2) c →
        fwhmIdxList 1 1 2 [2, 2] = allIdx 1 1 2 ∧
        storedThreshold 1 1 2 [2, 2] = c * (708/1000))) :=
  ⟨⟨by norm_num, by norm_num, by norm_num⟩,
   fwhm_fallback_branch 1 1 2 [2, 2] (by norm_num) (by norm_num) (by norm_num)⟩

/-- Claim C5.  For every non-empty FWHM region and every axis projection
`f`: the recorded per-axis minimum/maximum bound the region's voxels and
are attained by some voxel of the region (they are the per-axis extremes);
the minimum never exceeds the maximum (so each dimension spans at least one
voxel); the physical dimension is `(max - min + 1) * voxel_size_mm`
(inclusive count); the volume is the product of the three dimensions; and
the voxel count equals the cardinality of the FWHM voxel set. -/
theorem fwhm_geometry (nx ny nz : ℕ) (l : List ℚ) (vs : ℚ)
    (hne : fwhmIdxList nx ny nz l ≠ []) :
    (∀ f : ℕ × ℕ × ℕ → ℕ,
      (∀ p ∈ fwhmIdxList nx ny nz l,
        fwhmAxisMin nx ny nz l f ≤ f p ∧ f p ≤ fwhmAxisMax nx ny nz l f) ∧
      (∃ p ∈ fwhmIdxList nx ny nz l, f p = fwhmAxisMin nx ny nz l f) ∧
      (∃ p ∈ fwhmIdxList nx ny nz l, f p = fwhmAxisMax nx ny nz l f) ∧
      fwhmAxisMin nx ny nz l f ≤ fwhmAxisMax nx ny nz l f ∧
      fwhmDim nx ny nz l vs f =
        ((fwhmAxisMax nx ny nz l f - fwhmAxisMin nx ny nz l f + 1 : ℕ) : ℚ) * vs) ∧
    fwhmVolume nx ny nz l vs =
      fwhmDim nx ny nz l vs (fun p => p.1) * fwhmDim nx ny nz l vs (fun p => p.2.1) *
        fwhmDim nx ny nz l vs (fun p => p.2.2) ∧
    fwhmVoxelCount nx ny nz l = (fwhmFinset nx ny nz l).card := by
  refine ⟨?_, rfl, fwhmVoxelCount_eq_card nx ny nz l⟩
  intro f
  have hmapne : (fwhmIdxList nx ny nz l).map f ≠ [] := by
    simpa using hne
  refine ⟨?_, ?_, ?_, ?_, rfl⟩
  · intro p hp
    exact ⟨listMin_le _ _ (List.mem_map_of_mem f hp),
      le_listMax _ _ (List.mem_map_of_mem f hp)⟩
  · obtain ⟨p, hp, he⟩ := List.mem_map.mp (listMin_mem _ hmapne)
    exact ⟨p, hp, he⟩
  · obtain ⟨p, hp, he⟩ := List.mem_map.mp (listMax_mem _ hmapne)
    exact ⟨p, hp, he⟩
  · obtain ⟨p, hp, he⟩ := List.mem_map.mp (listMin_mem _ hmapne)
    show listMin _ ≤ listMax _
    rw [← he]
    exact le_listMax _ _ (List.mem_map_of_mem f hp)

theorem fwhm_geometry_witness :
    fwhmIdxList 1 1 2 [0, 2] ≠ [] ∧
    ((∀ f : ℕ × ℕ × ℕ → ℕ,
      (∀ p ∈ fwhmIdxList 1 1 2 [0, 2],
        fwhmAxisMin 1 1 2 [0, 2] f ≤ f p ∧ f p ≤ fwhmAxisMax 1 1 2 [0, 2] f) ∧
      (∃ p ∈ fwhmIdxList 1 1 2 [0, 2], f p = fwhmAxisMin 1 1 2 [0, 2] f) ∧
      (∃ p ∈ fwhmIdxList 1 1 2 [0, 2], f p = fwhmAxisMax 1 1 2 [0, 2] f) ∧
      fwhmAxisMin 1 1 2 [0, 2] f ≤ fwhmAxisMax 1 1 2 [0, 2] f ∧
      fwhmDim 1 1 2 [0, 2] 5 f =
        ((fwhmAxisMax 1 1 2 [0, 2] f - fwhmAxisMin 1 1 2 [0, 2] f + 1 : ℕ) : ℚ) * 5) ∧
    fwhmVolume 1 1 2 [0, 2] 5 =
      fwhmDim 1 1 2 [0, 2] 5 (fun p => p.1) * fwhmDim 1 1 2 [0, 2] 5 (fun p => p.2.1) *
        fwhmDim 1 1 2 [0, 2] 5 (fun p => p.2.2) ∧
    fwhmVoxelCount 1 1 2 [0, 2] = (fwhmFinset 1 1 2 [0, 2]).card) :=
  ⟨by norm_num [fwhmIdxList, allIdx, fwhmThreshold, valAt, listMax,
      List.range_succ, List.filter],
   fwhm_geometry 1 1 2 [0, 2] 5
    (by norm_num [fwhmIdxList, allIdx, fwhmThreshold, valAt, listMax,
      List.range_succ, List.filter])⟩

/-- Claim C1 (amended).  If every entry of the field equals every other entry
(so the code's `max() > min()` guard fails), normalization maps each
positive entry to `0.5`, each non-positive entry to `-0.1`, and produces no
NaN.  The original claim asked this already whenever all *positive* entries
are equal even when zeros are mixed in; `norm_mixed_flat_cex` refutes that. -/
theorem norm_uniform_field (l : List ℚ) (h : ∀ v ∈ l, ∀ w ∈ l, v = w) :
    (∀ (m : ℕ) (v : ℚ), l.get? m = some v →
      (normalizeField l).get? m = some (if 0 < v then some (1/2) else some (-1/10))) ∧
    ∀ o ∈ normalizeField l, o ≠ none := by
  have hng : ¬ (listMax l > listMin l) := by
    rcases eq_or_ne l [] with hl | hl
    · subst hl
      simp [listMax, listMin]
    · have h1 := listMax_mem l hl
      have h2 := listMin_mem l hl
      have heq := h _ h1 _ h2
      simp [heq]
  have hnf : normalizeField l =
      l.map (fun v => if 0 < v then some (1/2) else some (-1/10)) := by
    simp only [normalizeField]
    rw [if_neg hng]
  constructor
  · intro m v hv
    rw [hnf, List.get?_map, hv]
    rfl
  · intro o ho
    rw [hnf] at ho
    obtain ⟨v, _, rfl⟩ := List.mem_map.mp ho
    split <;> simp

theorem norm_uniform_field_witness :
    (∀ v ∈ [(2:ℚ), 2], ∀ w ∈ [(2:ℚ), 2], v = w) ∧
    ((∀ (m : ℕ) (v : ℚ), [(2:ℚ), 2].get? m = some v →
      (normalizeField [2, 2]).get? m = some (if 0 < v then some (1/2) else some (-1/10))) ∧
    ∀ o ∈ normalizeField [2, 2], o ≠ none) :=
  ⟨by norm_num, norm_uniform_field [2, 2] (by norm_num)⟩

/-- Claim C1 counterexample.  In the field `[0, 2, 2]` all strictly positive
entries are equal, yet the positive entries normalize to NaN (`none`),
not `0.5`: the outer guard `max() > min()` holds (`2 > 0`), so the code
divides by `max_val - min_val = 2 - 2 = 0`. -/
theorem norm_mixed_flat_cex :
    (∀ v ∈ [(0:ℚ), 2, 2], 0 < v → v = 2) ∧
    ¬ (∀ o ∈ normalizeField [0, 2, 2], o = some (1/2) ∨ o = some (-1/10)) := by
  have hval : normalizeField [0, 2, 2] = [some (-1/10), none, none] := by
    norm_num [normalizeField, posMin, listMax, listMin, List.filter, List.cons_ne_nil]
  refine ⟨by norm_num, ?_⟩
  intro hcl
  have hmem : (none : Option ℚ) ∈ normalizeField [0, 2, 2] := by
    rw [hval]
    simp
  rcases hcl none hmem with h | h <;> simp at h

/-- Claim C2 (amended).  For every non-negative field with at least one
positive voxel whose maximum strictly exceeds its minimum positive value,
zero entries normalize to `-0.1`, each positive entry `v` to the affine
value `(v - min_val) / (max_val - min_val) ∈ [0, 1]`, and every voxel
attaining the maximum — in particular the voxel at `max_index` — to
exactly `1`.  The original claim assumed only the existence of a positive
voxel; `norm_flat_cex` refutes it on the flat field `[2, 2]`, where the
maximum voxel normalizes to `0.5`, not `1`. -/
theorem norm_range_max_one (l : List ℚ) (hne : l ≠ []) (hnn : ∀ v ∈ l, 0 ≤ v)
    (hlt : posMin l < listMax l) :
    (∀ (m : ℕ) (v : ℚ), l.get? m = some v →
      (v = 0 → (normalizeField l).get? m = some (some (-1/10))) ∧
      (0 < v → (normalizeField l).get? m =
          some (some ((v - posMin l) / (listMax l - posMin l))) ∧
        0 ≤ (v - posMin l) / (listMax l - posMin l) ∧
        (v - posMin l) / (listMax l - posMin l) ≤ 1)) ∧
    (∀ m : ℕ, l.get? m = some (listMax l) →
      (normalizeField l).get? m = some (some 1)) := by
  have hpos : ∃ v ∈ l, 0 < v := by
    by_contra hnp
    push_neg at hnp
    have hf : l.filter (fun v => 0 < v) = [] := by
      rw [List.filter_eq_nil]
      intro v hv
      simpa using hnp v hv
    have hp0 : posMin l = 0 := by
      simp only [posMin]
      rw [if_pos hf]
    rw [hp0] at hlt
    exact absurd hlt (by simpa using hnp _ (listMax_mem l hne))
  obtain ⟨hpm_mem, hpm_pos, hpm_le⟩ := posMin_spec l hpos
  have hmax_pos : 0 < listMax l := lt_trans hpm_pos hlt
  have hguard : listMin l < listMax l := by
    rcases lt_or_eq_of_le (hnn _ (listMin_mem l hne)) with h0 | h0
    · have h1 : posMin l ≤ listMin l := hpm_le _ (listMin_mem l hne) h0
      have h2 : listMin l ≤ posMin l := listMin_le l _ hpm_mem
      rw [le_antisymm h2 h1]
      exact hlt
    · rw [← h0]
      exact hmax_pos
  have hden : listMax l - posMin l ≠ 0 := sub_ne_zero.mpr hlt.ne'
  have hdpos : 0 < listMax l - posMin l := by linarith
  have hnf : normalizeField l =
      l.map (fun v => if 0 < v then
        some ((v - posMin l) / (listMax l - posMin l)) else some (-1/10)) := by
    simp only [normalizeField]
    rw [if_pos hguard]
    simp only [if_neg hlt.ne']
  constructor
  · intro m v hv
    have hvmem : v ∈ l := List.get?_mem hv
    constructor
    · intro hv0
      rw [hnf, List.get?_map, hv]
      simp [hv0]
    · intro hvpos
      refine ⟨?_, ?_, ?_⟩
      · rw [hnf, List.get?_map, hv]
        simp [hvpos]
      · exact div_nonneg (by linarith [hpm_le v hvmem hvpos]) (le_of_lt hdpos)
      · rw [div_le_one hdpos]
        linarith [le_listMax l v hvmem]
  · intro m hm
    rw [hnf, List.get?_map, hm]
    simp [if_pos hmax_pos, div_self hden]

theorem norm_range_max_one_witness :
    ([(0:ℚ), 1, 2] ≠ [] ∧ (∀ v ∈ [(0:ℚ), 1, 2], 0 ≤ v) ∧
      posMin [0, 1, 2] < listMax [0, 1, 2]) ∧
    ((∀ (m : ℕ) (v : ℚ), [(0:ℚ), 1, 2].get? m = some v →
      (v = 0 → (normalizeField [0, 1, 2]).get? m = some (some (-1/10))) ∧
      (0 < v → (normalizeField [0, 1, 2]).get? m =
          some (some ((v - posMin [0, 1, 2]) / (listMax [0, 1, 2] - posMin [0, 1, 2]))) ∧
        0 ≤ (v - posMin [0, 1, 2]) / (listMax [0, 1, 2] - posMin [0, 1, 2]) ∧
        (v - posMin [0, 1, 2]) / (listMax [0, 1, 2] - posMin [0, 1, 2]) ≤ 1)) ∧
    (∀ m : ℕ, [(0:ℚ), 1, 2].get? m = some (listMax [0, 1, 2]) →
      (normalizeField [0, 1, 2]).get? m = some (some 1))) :=
  ⟨⟨by simp, by norm_num,
    by norm_num [posMin, listMax, listMin, List.filter, List.cons_ne_nil]⟩,
   norm_range_max_one [0, 1, 2] (by simp) (by norm_num)
    (by norm_num [posMin, listMax, listMin, List.filter, List.cons_ne_nil])⟩

/-- Claim C2 counterexample.  The flat field `[2, 2]` has a strictly positive
voxel, index `0` holds the maximum, yet it normalizes to `0.5 ≠ 1`:
the claim's "max_index normalizes to exactly 1.0" fails without the
`min_val < max_val` hypothesis. -/
theorem norm_flat_cex :
    (∃ v ∈ [(2:ℚ), 2], 0 < v) ∧
    [(2:ℚ), 2].get? 0 = some (listMax [2, 2]) ∧
    (normalizeField [2, 2]).get? 0 = some (some (1/2)) ∧ (1/2 : ℚ) ≠ 1 := by
  refine ⟨⟨2, by norm_num⟩, ?_, ?_, by norm_num⟩
  · norm_num [listMax]
  · norm_num [normalizeField, posMin, listMax, listMin, List.filter, List.cons_ne_nil]

/-! ## Field reconstruction from sparse voxel records (`load_data`, lines 50-69)

```python
for voxel_file in self.data_dir.glob("voxel_*.npy"):
    try:
        parts = voxel_file.stem.split('_')
        if len(parts) >= 4:
            ix, iy, iz = int(parts[1]), int(parts[2]), int(parts[3])
            data = np.load(voxel_file, allow_pickle=True).item()
            if 'ch1_voltage' in data:
                v1 = data['ch1_voltage']
                v1_ac = v1 - np.mean(v1)
                rms = np.sqrt(np.mean(v1_ac**2))
                self.pressure_field[ix, iy, iz] = rms
            else:
                self.pressure_field[ix, iy, iz] = data.get('rms', 0.0)
    except:
        pass
```
-/

/-- A loaded voxel record (`data`): the optional raw waveform
`ch1_voltage` and the optional stored scalar under the `rms` key
(`data.get('rms', 0.0)` defaults a missing key to `0`). -/
structure VoxelRecord where
  ch1_voltage : Option (List ℚ)
  rms : Option ℚ

/-- Embeds `np.mean`. -/
def meanQ (l : List ℚ) : ℚ := l.sum / l.length

/-- Mean square of the DC-removed waveform:
`np.mean((v1 - np.mean(v1)) ** 2)`. -/
def msAC (l : List ℚ) : ℚ := meanQ (l.map (fun x => (x - meanQ l) ^ 2))

/-- The value written into the dense field for one record: the recomputed
AC RMS `np.sqrt(np.mean(v1_ac ** 2))` when the raw waveform is present,
otherwise the stored `rms` scalar. -/
noncomputable def recordValue (d : VoxelRecord) : ℝ :=
  match d.ch1_voltage with
  | some v => Real.sqrt ((msAC v : ℚ) : ℝ)
  | none => ((d.rms.getD 0 : ℚ) : ℝ)

/-- One `voxel_*.npy` file as the loop sees it.  `coords` is the parse of
the filename stem: `none` models a malformed encoding — fewer than four
`_`-separated parts (the `len(parts) >= 4` guard skips it) or a part on
which `int()` raises `ValueError` (swallowed by the bare `except`).
`payload` is the result of `np.load`: `none` models a corrupt file whose
load raises (also swallowed). -/
structure RawSample where
  coords : Option (ℤ × ℤ × ℤ)
  payload : Option VoxelRecord

/-- numpy basic-indexing validity for an axis of length `n`:
`-n ≤ i < n` (anything else raises `IndexError`, caught by the bare
`except`; negative indices in range wrap). -/
def inBounds (n : ℕ) (i : ℤ) : Bool :=
  decide (-(n : ℤ) ≤ i) && decide (i < (n : ℤ))

/-- Effect of one `voxel_*.npy` file on the dense field: malformed names,
corrupt payloads and out-of-range indices leave the field unchanged;
otherwise the record's value is written at the (numpy-wrapped) index. -/
noncomputable def applySample (nx ny nz : ℕ) (f : ℕ × ℕ × ℕ → ℝ)
    (s : RawSample) : ℕ × ℕ × ℕ → ℝ :=
  match s.coords with
  | none => f
  | some (ix, iy, iz) =>
    if inBounds nx ix && inBounds ny iy && inBounds nz iz then
      match s.payload with
      | none => f
      | some d =>
        Function.update f ((ix.emod nx).toNat, (iy.emod ny).toNat, (iz.emod nz).toNat)
          (recordValue d)
    else f

/-- The glob loop: fold the samples over the all-zero field
`np.zeros(shape)`. -/
noncomputable def reconstruct (nx ny nz : ℕ) (samples : List RawSample) :
    ℕ × ℕ × ℕ → ℝ :=
  samples.foldl (applySample nx ny nz) (fun _ => 0)

/-- A sample the loop skips entirely: malformed name, corrupt payload, or
an index numpy rejects on some axis. -/
def skippedSample (nx ny nz : ℕ) (s : RawSample) : Prop :=
  s.coords = none ∨ s.payload = none ∨
    ∃ c : ℤ × ℤ × ℤ, s.coords = some c ∧
      (inBounds nx c.1 && inBounds ny c.2.1 && inBounds nz c.2.2) = false

/-! ## Transfer functions (`create_enhanced_volume_property`, lines 177-207) -/

/-- The `color_func.AddRGBPoint` calls, in source order:
`(domain, r, g, b)`. -/
def colorPoints : List (ℚ × ℚ × ℚ × ℚ) :=
  [(0, 0, 0, 1), (2/10, 0, 1/2, 1), (4/10, 0, 1, 1/2), (6/10, 1/2, 1, 0),
   (708/1000, 1, 1, 0), (8/10, 1, 8/10, 0), (9/10, 1, 4/10, 0), (1, 1, 0, 0)]

/-- The `opacity_func.AddPoint` calls, in source order: `(domain, alpha)`. -/
def opacityPoints : List (ℚ × ℚ) :=
  [(-1/10, 0), (0, 0), (1/10, 2/100), (3/10, 5/100), (1/2, 15/100),
   (7/10, 25/100), (708/1000, 8/10), (8/10, 85/100), (9/10, 9/10), (1, 95/100)]

/-- The `gradient_opacity.AddPoint` calls, in source order. -/
def gradientPoints : List (ℚ × ℚ) :=
  [(0, 0), (1/10, 1/10), (3/10, 3/10), (708/1000, 8/10), (1, 1)]

/-- Claim C6.  When a record carries a raw waveform, the value written is the
RMS of the DC-removed (mean-subtracted) signal and the stored `rms` field
is ignored; a constant (pure-DC) waveform of any length therefore
reconstructs to `0` — in particular `[5,5,5,5] ↦ 0`, not `5` — and the
stored `rms` is used exactly when the raw waveform is absent. -/
theorem rms_dc_removal (d : VoxelRecord) :
    (∀ v : List ℚ, d.ch1_voltage = some v →
      recordValue d = Real.sqrt ((meanQ (v.map (fun x => (x - meanQ v) ^ 2)) : ℚ) : ℝ)) ∧
    (d.ch1_voltage = none → recordValue d = ((d.rms.getD 0 : ℚ) : ℝ)) ∧
    (∀ (c : ℚ) (n : ℕ), 0 < n → d.ch1_voltage = some (List.replicate n c) →
      recordValue d = 0) := by
  refine ⟨?_, ?_, ?_⟩
  · intro v hv
    simp [recordValue, hv, msAC]
  · intro hv
    simp [recordValue, hv]
  · intro c n hn hv
    have hnz : (n : ℚ) ≠ 0 := Nat.cast_ne_zero.mpr hn.ne'
    have hmean : meanQ (List.replicate n c) = c := by
      simp only [meanQ, List.sum_replicate, List.length_replicate, nsmul_eq_mul]
      rw [mul_comm, mul_div_assoc, div_self hnz, mul_one]
    have hms : msAC (List.replicate n c) = 0 := by
      simp only [msAC, hmean, List.map_replicate, sub_self]
      norm_num [meanQ, List.sum_replicate]
    simp [recordValue, hv, hms]

theorem rms_dc_removal_witness :
    (0 < 4 ∧ (VoxelRecord.mk (some [5, 5, 5, 5]) (some 5)).ch1_voltage =
      some (List.replicate 4 (5 : ℚ))) ∧
    recordValue (VoxelRecord.mk (some [5, 5, 5, 5]) (some 5)) = 0 ∧ (0 : ℝ) ≠ 5 :=
  ⟨⟨by norm_num, rfl⟩,
   (rms_dc_removal (VoxelRecord.mk (some [5, 5, 5, 5]) (some 5))).2.2 5 4
     (by norm_num) rfl,
   by norm_num⟩

/-- Claim C7 (amended).  Samples with a malformed coordinate encoding, a
corrupt payload, or a coordinate numpy rejects (outside `[-dim, dim)` on
some axis) are skipped: they change no voxel, and deleting them from the
sample list leaves the reconstructed field unchanged — reconstruction of
the remaining samples always completes.  Coordinates in `[0, dim)` write
the record's value at that voxel.  The original claim said *every* sample
with out-of-range coordinates (outside `[0, dim)`) writes to no voxel;
`reconstruct_negative_wrap_cex` refutes it: numpy wraps negative in-range
indices, so coordinate `-1` writes to voxel `dim - 1`. -/
theorem reconstruct_skips (nx ny nz : ℕ) :
    (∀ (f : ℕ × ℕ × ℕ → ℝ) (s : RawSample), skippedSample nx ny nz s →
      applySample nx ny nz f s = f) ∧
    (∀ (pre post : List RawSample) (s : RawSample), skippedSample nx ny nz s →
      reconstruct nx ny nz (pre ++ s :: post) = reconstruct nx ny nz (pre ++ post)) ∧
    (∀ (f : ℕ × ℕ × ℕ → ℝ) (s : RawSample) (c : ℤ × ℤ × ℤ) (d : VoxelRecord),
      s.coords = some c → s.payload = some d →
      0 ≤ c.1 → c.1 < (nx : ℤ) → 0 ≤ c.2.1 → c.2.1 < (ny : ℤ) →
      0 ≤ c.2.2 → c.2.2 < (nz : ℤ) →
      applySample nx ny nz f s =
        Function.update f (c.1.toNat, c.2.1.toNat, c.2.2.toNat) (recordValue d)) := by
  have hskip : ∀ (f : ℕ × ℕ × ℕ → ℝ) (s : RawSample), skippedSample nx ny nz s →
      applySample nx ny nz f s = f := by
    intro f s hs
    rcases s with ⟨co, pa⟩
    rcases hs with h | h | ⟨c, hc, hb⟩
    · simp only at h
      subst h
      rfl
    · simp only at h
      subst h
      cases co with
      | none => rfl
      | some c =>
        rcases c with ⟨ix, iy, iz⟩
        simp only [applySample]
        split <;> rfl
    · simp only at hc
      subst hc
      rcases c with ⟨ix, iy, iz⟩
      simp only [applySample]
      rw [if_neg]
      simp only at hb
      simp [hb]
  refine ⟨hskip, ?_, ?_⟩
  · intro pre post s hs
    unfold reconstruct
    rw [List.foldl_append, List.foldl_append]
    simp only [List.foldl_cons]
    rw [hskip _ s hs]
  · intro f s c d hc hd h1 h2 h3 h4 h5 h6
    rcases s with ⟨co, pa⟩
    rcases c with ⟨ix, iy, iz⟩
    simp only at hc hd h1 h2 h3 h4 h5 h6
    subst hc
    subst hd
    simp only [applySample]
    rw [if_pos]
    · have hex : ix.emod ↑nx = ix := Int.emod_eq_of_lt h1 h2
      have hey : iy.emod ↑ny = iy := Int.emod_eq_of_lt h3 h4
      have hez : iz.emod ↑nz = iz := Int.emod_eq_of_lt h5 h6
      rw [hex, hey, hez]
    · simp only [inBounds, Bool.and_eq_true, decide_eq_true_eq]
      omega

theorem reconstruct_skips_witness :
    skippedSample 2 2 2 (RawSample.mk (some (5, 0, 0)) (some (VoxelRecord.mk none (some 3)))) ∧
    applySample 2 2 2 (fun _ => 0)
      (RawSample.mk (some (5, 0, 0)) (some (VoxelRecord.mk none (some 3)))) = (fun _ => 0) :=
  ⟨Or.inr (Or.inr ⟨(5, 0, 0), rfl, by decide⟩),
   (reconstruct_skips 2 2 2).1 (fun _ => 0) _
     (Or.inr (Or.inr ⟨(5, 0, 0), rfl, by decide⟩))⟩

/-- Claim C7 counterexample.  A sample carrying coordinates `(-1, 0, 0)` —
out of range for a `(2,2,2)` grid, where valid coordinates lie in
`[0, 2)` — is *not* skipped: numpy wraps the negative index and its value
`3` is written to voxel `(1, 0, 0)`, refuting "its value is written to no
voxel". -/
theorem reconstruct_negative_wrap_cex :
    ¬ (0 ≤ (-1 : ℤ)) ∧
    reconstruct 2 2 2
      [RawSample.mk (some (-1, 0, 0)) (some (VoxelRecord.mk none (some 3)))]
      (1, 0, 0) = (3 : ℝ) ∧
    (3 : ℝ) ≠ 0 := by
  refine ⟨by norm_num, ?_, by norm_num⟩
  simp only [reconstruct, List.foldl_cons, List.foldl_nil, applySample]
  rw [if_pos (by decide)]
  have hidx : ((((-1 : ℤ).emod ((2:ℕ):ℤ)).toNat, ((0 : ℤ).emod ((2:ℕ):ℤ)).toNat,
      ((0 : ℤ).emod ((2:ℕ):ℤ)).toNat) : ℕ × ℕ × ℕ) = (1, 0, 0) := by decide
  rw [hidx, Function.update_same]
  simp [recordValue]

/-- Claim C9.  The transfer-function tables: the color function places yellow
`(1,1,0)` at domain `0.708`, starts with blue `(0,0,1)` at `0` and ends
with red `(1,0,0)` at `1`; the opacity function sends both `-0.1` and `0`
to opacity `0`, stays at or below `0.15` on every control point with
domain up to `0.5`, jumps to `0.8` at `0.708`, and reaches `0.95` at `1`;
the domain values of both functions are strictly increasing. -/
theorem transfer_function_properties :
    ((708/1000 : ℚ), (1 : ℚ), (1 : ℚ), (0 : ℚ)) ∈ colorPoints ∧
    colorPoints.head? = some (0, 0, 0, 1) ∧
    colorPoints.getLast? = some (1, 1, 0, 0) ∧
    List.Chain' (· < ·) (colorPoints.map (fun p => p.1)) ∧
    ((-1/10 : ℚ), (0 : ℚ)) ∈ opacityPoints ∧
    ((0 : ℚ), (0 : ℚ)) ∈ opacityPoints ∧
    (∀ p ∈ opacityPoints, p.1 ≤ 1/2 → p.2 ≤ 15/100) ∧
    ((708/1000 : ℚ), (8/10 : ℚ)) ∈ opacityPoints ∧
    ((1 : ℚ), (95/100 : ℚ)) ∈ opacityPoints ∧
    List.Chain' (· < ·) (opacityPoints.map (fun p => p.1)) := by
  refine ⟨?_, rfl, rfl, ?_, ?_, ?_, ?_, ?_, ?_, ?_⟩ <;>
    norm_num [colorPoints, opacityPoints]

theorem transfer_function_properties_witness :
    ((708/1000 : ℚ), (1 : ℚ), (1 : ℚ), (0 : ℚ)) ∈ colorPoints :=
  transfer_function_properties.1

end Octopus
